import Mathlib

/-!
# Verification of the slang arena AST and closure-compiling executor

This file embeds the core of the `slang` repository in Lean 4 and proves
properties of it:

* the arena-backed AST pool (`src/ast/pool.rs`, `src/ast/mod.rs`): node store,
  subtree-length computation `len`, backward child reconstruction `children`,
  string interner, dependency search;
* the closure compiler and runtime (`src/compiler/executor.rs`,
  `src/compiler/function.rs`, `src/value/mod.rs`): compilation context,
  capture analysis, lowering of AST nodes to closures, and the stack-based
  execution of compiled closures.

Rust `usize` arithmetic is modelled with `Nat` (the code never overflows on
the inputs considered; where the Rust debug build would panic on subtraction
underflow this is noted at the definition).  Stateful code is modelled by
explicit state passing, recursion through the arena by a fuel parameter.
-/

namespace Slang

/-- `PrimitiveFunc` from `src/ast/primitives.rs`. -/
inductive PrimitiveFunc where
  | add
  | multiply
  deriving DecidableEq, Repr

/-- `Ast` from `src/ast/mod.rs`.  Indices (`AstIdx`, `NameIdx`, `ParamIdx`)
are plain `Nat`s.  The `call` variant carries the four fields of the
definition in `mod.rs` (`func_idx`, `child_start`, `child_count`, `len`);
note that `pool.rs`'s builder `add_call` supplies only `func_idx` and
`child_count`, and none of the pool queries or the compiler ever read
`child_start` or the stored `len` field. -/
inductive Ast where
  | integer (value : Int)
  | paramRef (name level offset : Nat)
  | primitiveFunc (p : PrimitiveFunc)
  | userFunc (name : Nat)
  | lambda (paramCount bodyIdx : Nat)
  | call (funcIdx childStart childCount lenFld : Nat)
  | functionDef (nameIdx paramCount bodyIdx : Nat)
  deriving DecidableEq, Repr

/-- The node store of `AstPool` (`nodes: Vec<Ast>`). -/
abbrev Pool := List Ast

/-- Arena indexing (`impl Index<AstIdx> for AstPool`).  The Rust code uses
`get_unchecked`, so an out-of-range access is undefined behaviour there; we
totalise with a default node, and every theorem stays within range. -/
def nodeAt (ns : Pool) (i : Nat) : Ast :=
  ns.getD i (.integer 0)

/-- The backward walk inside `AstPool::children` (`src/ast/pool.rs`): from
`cur` (one past the last argument root), `count` times take `cur - 1` as a
child and step down by that child's own length.  `lenAt` is the enclosing
pool's `len` at the current fuel. -/
def childLoop (lenAt : Nat → Nat) : Nat → Nat → List Nat
  | 0, _ => []
  | count + 1, cur => (cur - 1) :: childLoop lenAt count (cur - lenAt (cur - 1))

/-- `AstPool::len` (`src/ast/pool.rs` lines 195–216), with a fuel parameter
for the recursion through the arena.  Atomic kinds have length 1; a `Call`
is `1 + len(func_idx) + Σ len(child)` over the reconstructed children
(recomputed recursively — the stored `lenFld` field is not consulted); a
`FunctionDef` is `1 + len(body)`.  The `lambda` arm is modelled from the
spec (§3: `Lambda`/`FunctionDef` = 1 + `len(body)`): `pool.rs` predates the
`Lambda` variant and has no arm for it. -/
def lenF : Nat → Pool → Nat → Nat
  | 0, _, _ => 0
  | fuel + 1, ns, i =>
    match nodeAt ns i with
    | .integer _ => 1
    | .paramRef _ _ _ => 1
    | .primitiveFunc _ => 1
    | .userFunc _ => 1
    | .lambda _ b => 1 + lenF fuel ns b
    | .functionDef _ _ b => 1 + lenF fuel ns b
    | .call fi _ cc _ =>
      let cs := (childLoop (lenF fuel ns) cc (i - lenF fuel ns fi)).reverse
      1 + lenF fuel ns fi + (cs.map (lenF fuel ns)).sum

/-- `AstPool::len` at its default fuel: every well-formed reference points
strictly downward, so `i + 1` units suffice at index `i`. -/
def lenP (ns : Pool) (i : Nat) : Nat :=
  lenF (i + 1) ns i

/-- `AstPool::children` (`src/ast/pool.rs` lines 218–241): `None` for atomic
kinds, the backward reconstruction (then reversed) for a `Call`, a singleton
for `FunctionDef`.  The `lambda` arm is modelled from the spec (§4.1:
"`children` returns … a singleton for `Lambda`/`FunctionDef`"): `pool.rs`
predates the `Lambda` variant. -/
def childrenP (ns : Pool) (i : Nat) : Option (List Nat) :=
  match nodeAt ns i with
  | .call fi _ cc _ =>
    some ((childLoop (lenP ns) cc (i - lenP ns fi)).reverse)
  | .functionDef _ _ b => some [b]
  | .lambda _ b => some [b]
  | _ => none

/-! ## The arena-builder contract

`Expr` is a front-end expression tree; `buildE base e` is the list of arena
nodes that a caller of the builder API appends for `e` when the arena
already holds `base` nodes, in the post-order the API contract demands:
for a call, the argument subtrees left-to-right, then the callee subtree,
then the `Call` node itself (`AstPool::add_function_call` parses arguments
first, then appends the callee node, then `add_call`); for a lambda or a
function definition, the body first, then the node.  `add_call` records
only `func_idx` and `child_count`; the unread `child_start`/`len` fields of
the node are set to 0. -/

inductive Expr where
  | intE (i : Int)
  | prefE (name level offset : Nat)
  | primE (p : PrimitiveFunc)
  | ufuncE (name : Nat)
  | lamE (paramCount : Nat) (body : Expr)
  | fdefE (name paramCount : Nat) (body : Expr)
  | callE (callee : Expr) (args : List Expr)
  deriving Repr

mutual

/-- Number of arena slots `e` occupies. -/
def esize : Expr → Nat
  | .intE _ => 1
  | .prefE _ _ _ => 1
  | .primE _ => 1
  | .ufuncE _ => 1
  | .lamE _ b => esize b + 1
  | .fdefE _ _ b => esize b + 1
  | .callE c as => esizeList as + esize c + 1

/-- Total arena slots of a list of argument subtrees. -/
def esizeList : List Expr → Nat
  | [] => 0
  | a :: as => esize a + esizeList as

end

mutual

/-- The nodes appended for `e` when the arena already holds `base` nodes. -/
def buildE (base : Nat) : Expr → List Ast
  | .intE i => [.integer i]
  | .prefE n l o => [.paramRef n l o]
  | .primE p => [.primitiveFunc p]
  | .ufuncE n => [.userFunc n]
  | .lamE pc b => buildE base b ++ [.lambda pc (base + esize b - 1)]
  | .fdefE n pc b => buildE base b ++ [.functionDef n pc (base + esize b - 1)]
  | .callE c as =>
    buildArgs base as ++ buildE (base + esizeList as) c ++
      [.call (base + esizeList as + esize c - 1) 0 as.length 0]

/-- The nodes appended for the argument subtrees, left-to-right. -/
def buildArgs (base : Nat) : List Expr → List Ast
  | [] => []
  | a :: as => buildE base a ++ buildArgs (base + esize a) as

end

/-- The root indices of the argument subtrees of a call built at `base`:
each argument's root is its last appended node. -/
def argRoots (base : Nat) : List Expr → List Nat
  | [] => []
  | a :: as => (base + esize a - 1) :: argRoots (base + esize a) as

/-! ## Basic facts about sizes and builds -/

theorem esize_pos (e : Expr) : 1 ≤ esize e := by
  cases e <;> simp [esize]

theorem esizeList_append (xs ys : List Expr) :
    esizeList (xs ++ ys) = esizeList xs + esizeList ys := by
  induction xs with
  | nil => simp [esizeList]
  | cons a as ih => simp [esizeList, ih]; omega

mutual

theorem buildE_length : ∀ (base : Nat) (e : Expr),
    (buildE base e).length = esize e
  | _, .intE _ => by simp [buildE, esize]
  | _, .prefE _ _ _ => by simp [buildE, esize]
  | _, .primE _ => by simp [buildE, esize]
  | _, .ufuncE _ => by simp [buildE, esize]
  | base, .lamE pc b => by
    simp [buildE, esize, buildE_length base b]
  | base, .fdefE n pc b => by
    simp [buildE, esize, buildE_length base b]
  | base, .callE c as => by
    simp [buildE, esize, buildE_length (base + esizeList as) c,
      buildArgs_length base as]
    omega

theorem buildArgs_length : ∀ (base : Nat) (as : List Expr),
    (buildArgs base as).length = esizeList as
  | _, [] => by simp [buildArgs, esizeList]
  | base, a :: as => by
    simp [buildArgs, esizeList, buildE_length base a,
      buildArgs_length (base + esize a) as]

end

theorem buildArgs_append (base : Nat) (xs ys : List Expr) :
    buildArgs base (xs ++ ys) =
      buildArgs base xs ++ buildArgs (base + esizeList xs) ys := by
  induction xs generalizing base with
  | nil => simp [buildArgs, esizeList]
  | cons a as ih =>
    simp [buildArgs, esizeList, ih, List.append_assoc]
    rw [Nat.add_assoc]

theorem argRoots_append (base : Nat) (xs ys : List Expr) :
    argRoots base (xs ++ ys) =
      argRoots base xs ++ argRoots (base + esizeList xs) ys := by
  induction xs generalizing base with
  | nil => simp [argRoots, esizeList]
  | cons a as ih =>
    simp [argRoots, esizeList, ih]
    rw [Nat.add_assoc]

/-! ## Arena indexing under appends -/

theorem nodeAt_append_left (P R : Pool) (i : Nat) (h : i < P.length) :
    nodeAt (P ++ R) i = nodeAt P i := by
  simp [nodeAt, List.getElem?_append, h]

theorem nodeAt_append_mid (P R : Pool) (k : Nat) :
    nodeAt (P ++ R) (P.length + k) = nodeAt R k := by
  simp [nodeAt, List.getElem?_append_right (Nat.le_add_right P.length k)]

theorem nodeAt_mid (P X Q : Pool) (k : Nat) (hk : k < X.length) :
    nodeAt (P ++ X ++ Q) (P.length + k) = nodeAt X k := by
  rw [List.append_assoc, nodeAt_append_mid, nodeAt_append_left _ _ _ hk]

theorem nodeAt_concat (X : Pool) (a : Ast) : nodeAt (X ++ [a]) X.length = a := by
  simp [nodeAt, List.getElem?_append_right (le_refl X.length)]

/-! ## The backward walk recovers the argument roots -/

/-- If `lenAt` returns the correct subtree size at the root of every
argument subtree laid out from `base`, then the backward walk of
`AstPool::children` visits exactly the argument roots, right to left. -/
theorem childLoop_args (lenAt : Nat → Nat) (as : List Expr) (base : Nat)
    (h : ∀ pre a post, as = pre ++ a :: post →
      lenAt (base + esizeList pre + esize a - 1) = esize a) :
    childLoop lenAt as.length (base + esizeList as) = (argRoots base as).reverse := by
  induction as using List.reverseRecOn with
  | nil => simp [childLoop, argRoots, esizeList]
  | append_singleton as a ih =>
    have ha : lenAt (base + esizeList as + esize a - 1) = esize a := h as a [] rfl
    have hpos := esize_pos a
    rw [esizeList_append]
    have hlen : (as ++ [a]).length = as.length + 1 := by simp
    rw [hlen]
    have hS : esizeList [a] = esize a := by simp [esizeList]
    rw [hS]
    have hassoc : base + (esizeList as + esize a) = base + esizeList as + esize a := by
      omega
    rw [hassoc]
    rw [childLoop]
    have hsub : base + esizeList as + esize a - lenAt (base + esizeList as + esize a - 1) =
        base + esizeList as := by rw [ha]; omega
    rw [hsub, ih]
    · rw [argRoots_append]
      simp [argRoots, esizeList]
    · intro pre b post hdec
      exact h pre b (post ++ [a]) (by rw [hdec]; simp)

/-- Summing `lenAt` over the argument roots gives the total size of the
argument subtrees, under the same pointwise hypothesis. -/
theorem argRoots_map_sum (lenAt : Nat → Nat) (as : List Expr) (base : Nat)
    (h : ∀ pre a post, as = pre ++ a :: post →
      lenAt (base + esizeList pre + esize a - 1) = esize a) :
    ((argRoots base as).map lenAt).sum = esizeList as := by
  induction as generalizing base with
  | nil => simp [argRoots, esizeList]
  | cons a as ih =>
    have ha : lenAt (base + esize a - 1) = esize a := by
      have h0 := h [] a as rfl
      simpa [esizeList] using h0
    simp only [argRoots, List.map, List.sum_cons]
    rw [ha, ih (base + esize a)]
    · simp [esizeList]
    · intro pre b post hdec
      have h1 := h (a :: pre) b post (by rw [hdec]; simp)
      have e1 : base + esizeList (a :: pre) + esize b - 1 =
          base + esize a + esizeList pre + esize b - 1 := by
        simp [esizeList]; omega
      rw [e1] at h1
      exact h1

/-! ## `len` at the root of a built subtree gives the subtree size -/

/-- Core lemma, by strong induction on the subtree size: `len` evaluated at
the root of a subtree appended by the builder API returns exactly the
subtree's size, for any fuel of at least that size and independent of what
else the arena holds before or after the subtree. -/
theorem lenF_build_core : ∀ (n : Nat) (e : Expr), esize e ≤ n →
    ∀ (P Q : Pool) (g : Nat), esize e ≤ g →
    lenF g (P ++ buildE P.length e ++ Q) (P.length + esize e - 1) = esize e := by
  intro n
  induction n with
  | zero => intro e he _ _ _ _; have := esize_pos e; omega
  | succ n ih =>
    intro e he P Q g0 hf
    obtain ⟨g, rfl⟩ : ∃ g, g0 = g + 1 := ⟨g0 - 1, by have := esize_pos e; omega⟩
    cases e with
    | intE v =>
      simp only [esize, Nat.add_sub_cancel]
      have h0 : P.length = P.length + 0 := rfl
      rw [h0]
      simp only [lenF]
      rw [nodeAt_mid P _ Q 0 (by simp [buildE])]
      simp [buildE, nodeAt]
    | prefE nm l o =>
      simp only [esize, Nat.add_sub_cancel]
      have h0 : P.length = P.length + 0 := rfl
      rw [h0]
      simp only [lenF]
      rw [nodeAt_mid P _ Q 0 (by simp [buildE])]
      simp [buildE, nodeAt]
    | primE p =>
      simp only [esize, Nat.add_sub_cancel]
      have h0 : P.length = P.length + 0 := rfl
      rw [h0]
      simp only [lenF]
      rw [nodeAt_mid P _ Q 0 (by simp [buildE])]
      simp [buildE, nodeAt]
    | ufuncE nm =>
      simp only [esize, Nat.add_sub_cancel]
      have h0 : P.length = P.length + 0 := rfl
      rw [h0]
      simp only [lenF]
      rw [nodeAt_mid P _ Q 0 (by simp [buildE])]
      simp [buildE, nodeAt]
    | lamE pc b =>
      have hb : esize b ≤ n := by simp only [esize] at he; omega
      have hgb : esize b ≤ g := by simp only [esize] at hf; omega
      simp only [esize]
      have hidx : P.length + (esize b + 1) - 1 = P.length + esize b := by omega
      rw [hidx]
      simp only [buildE]
      have hnode : nodeAt
          (P ++ (buildE P.length b ++ [Ast.lambda pc (P.length + esize b - 1)]) ++ Q)
          (P.length + esize b) = Ast.lambda pc (P.length + esize b - 1) := by
        rw [nodeAt_mid P _ Q (esize b) (by simp [buildE_length])]
        have hcc := nodeAt_concat (buildE P.length b)
          (Ast.lambda pc (P.length + esize b - 1))
        rwa [buildE_length] at hcc
      simp only [lenF]
      rw [hnode]
      have hih := ih b hb P (Ast.lambda pc (P.length + esize b - 1) :: Q) g hgb
      simp only [List.append_assoc, List.singleton_append] at hih ⊢
      rw [hih]
      omega
    | fdefE nm pc b =>
      have hb : esize b ≤ n := by simp only [esize] at he; omega
      have hgb : esize b ≤ g := by simp only [esize] at hf; omega
      simp only [esize]
      have hidx : P.length + (esize b + 1) - 1 = P.length + esize b := by omega
      rw [hidx]
      simp only [buildE]
      have hnode : nodeAt
          (P ++ (buildE P.length b ++ [Ast.functionDef nm pc (P.length + esize b - 1)]) ++ Q)
          (P.length + esize b) = Ast.functionDef nm pc (P.length + esize b - 1) := by
        rw [nodeAt_mid P _ Q (esize b) (by simp [buildE_length])]
        have hcc := nodeAt_concat (buildE P.length b)
          (Ast.functionDef nm pc (P.length + esize b - 1))
        rwa [buildE_length] at hcc
      simp only [lenF]
      rw [hnode]
      have hih := ih b hb P (Ast.functionDef nm pc (P.length + esize b - 1) :: Q) g hgb
      simp only [List.append_assoc, List.singleton_append] at hih ⊢
      rw [hih]
      omega
    | callE c as =>
      have hC1 := esize_pos c
      have hcn : esize c ≤ n := by simp only [esize] at he; omega
      have hcg : esize c ≤ g := by simp only [esize] at hf; omega
      simp only [esize]
      have hidx : P.length + (esizeList as + esize c + 1) - 1 =
          P.length + (esizeList as + esize c) := by omega
      rw [hidx]
      simp only [buildE]
      have hnode : nodeAt
          (P ++ (buildArgs P.length as ++ buildE (P.length + esizeList as) c ++
            [Ast.call (P.length + esizeList as + esize c - 1) 0 as.length 0]) ++ Q)
          (P.length + (esizeList as + esize c)) =
          Ast.call (P.length + esizeList as + esize c - 1) 0 as.length 0 := by
        rw [nodeAt_mid P _ Q (esizeList as + esize c)
          (by simp [buildArgs_length, buildE_length])]
        have hAB : (buildArgs P.length as ++ buildE (P.length + esizeList as) c).length
            = esizeList as + esize c := by simp [buildArgs_length, buildE_length]
        have hcc := nodeAt_concat
          (buildArgs P.length as ++ buildE (P.length + esizeList as) c)
          (Ast.call (P.length + esizeList as + esize c - 1) 0 as.length 0)
        rwa [hAB] at hcc
      simp only [lenF]
      rw [hnode]
      simp only [List.append_assoc, List.singleton_append] at *
      have hcallee : lenF g
          (P ++ (buildArgs P.length as ++ (buildE (P.length + esizeList as) c ++
            Ast.call (P.length + esizeList as + esize c - 1) 0 as.length 0 :: Q)))
          (P.length + esizeList as + esize c - 1) = esize c := by
        have hih := ih c hcn (P ++ buildArgs P.length as)
          (Ast.call (P.length + esizeList as + esize c - 1) 0 as.length 0 :: Q) g hcg
        simp only [List.append_assoc, List.length_append, buildArgs_length] at hih
        exact hih
      rw [hcallee]
      have hsub : P.length + (esizeList as + esize c) - esize c =
          P.length + esizeList as := by omega
      rw [hsub]
      have hroots : ∀ pre a post, as = pre ++ a :: post →
          lenF g
            (P ++ (buildArgs P.length as ++ (buildE (P.length + esizeList as) c ++
              Ast.call (P.length + esizeList as + esize c - 1) 0 as.length 0 :: Q)))
            (P.length + esizeList pre + esize a - 1) = esize a := by
        intro pre a post hdec
        have hsz : esizeList as = esizeList pre + esize a + esizeList post := by
          rw [hdec, esizeList_append]
          simp [esizeList]
          omega
        have han : esize a ≤ n := by simp only [esize] at he; omega
        have hag : esize a ≤ g := by simp only [esize] at hf; omega
        have hA : buildArgs P.length as =
            buildArgs P.length pre ++
              (buildE (P.length + esizeList pre) a ++
                buildArgs (P.length + esizeList pre + esize a) post) := by
          rw [hdec, buildArgs_append]
          simp [buildArgs, List.append_assoc]
        rw [hA]
        have hih := ih a han (P ++ buildArgs P.length pre)
          (buildArgs (P.length + esizeList pre + esize a) post ++
            (buildE (P.length + esizeList as) c ++
              Ast.call (P.length + esizeList as + esize c - 1) 0 as.length 0 :: Q)) g hag
        simp only [List.append_assoc, List.length_append, buildArgs_length] at hih
        simp only [List.append_assoc]
        exact hih
      rw [childLoop_args _ as P.length hroots]
      rw [List.map_reverse, List.sum_reverse]
      rw [List.map_reverse, List.sum_reverse]
      rw [argRoots_map_sum _ as P.length hroots]
      omega

/-- `len` at the root of a built subtree, at any sufficient fuel. -/
theorem lenF_build (e : Expr) (P Q : Pool) (g : Nat) (hf : esize e ≤ g) :
    lenF g (P ++ buildE P.length e ++ Q) (P.length + esize e - 1) = esize e :=
  lenF_build_core (esize e) e le_rfl P Q g hf

/-- `AstPool::len` at the root of a built subtree gives the subtree size. -/
theorem lenP_build (e : Expr) (P Q : Pool) :
    lenP (P ++ buildE P.length e ++ Q) (P.length + esize e - 1) = esize e := by
  have h := lenF_build e P Q (P.length + esize e - 1 + 1) (by have := esize_pos e; omega)
  exact h

/-- `AstPool::children` at a `Call` node appended by the builder API (its
argument subtrees left-to-right, then the callee subtree, then the node)
recovers exactly the argument roots, left to right. -/
theorem childrenP_build (c : Expr) (as : List Expr) (P Q : Pool) :
    childrenP (P ++ buildE P.length (.callE c as) ++ Q)
      (P.length + esize (Expr.callE c as) - 1) = some (argRoots P.length as) := by
  have hC1 := esize_pos c
  simp only [esize, buildE]
  have hidx : P.length + (esizeList as + esize c + 1) - 1 =
      P.length + (esizeList as + esize c) := by omega
  rw [hidx]
  have hnode : nodeAt
      (P ++ (buildArgs P.length as ++ buildE (P.length + esizeList as) c ++
        [Ast.call (P.length + esizeList as + esize c - 1) 0 as.length 0]) ++ Q)
      (P.length + (esizeList as + esize c)) =
      Ast.call (P.length + esizeList as + esize c - 1) 0 as.length 0 := by
    rw [nodeAt_mid P _ Q (esizeList as + esize c)
      (by simp [buildArgs_length, buildE_length])]
    have hAB : (buildArgs P.length as ++ buildE (P.length + esizeList as) c).length
        = esizeList as + esize c := by simp [buildArgs_length, buildE_length]
    have hcc := nodeAt_concat
      (buildArgs P.length as ++ buildE (P.length + esizeList as) c)
      (Ast.call (P.length + esizeList as + esize c - 1) 0 as.length 0)
    rwa [hAB] at hcc
  rw [childrenP, hnode]
  simp only [List.append_assoc, List.singleton_append] at *
  have hcallee : lenP
      (P ++ (buildArgs P.length as ++ (buildE (P.length + esizeList as) c ++
        Ast.call (P.length + esizeList as + esize c - 1) 0 as.length 0 :: Q)))
      (P.length + esizeList as + esize c - 1) = esize c := by
    have hih := lenF_build c (P ++ buildArgs P.length as)
      (Ast.call (P.length + esizeList as + esize c - 1) 0 as.length 0 :: Q)
      (P.length + esizeList as + esize c - 1 + 1) (by omega)
    simp only [List.append_assoc, List.length_append, buildArgs_length] at hih
    exact hih
  rw [hcallee]
  have hsub : P.length + (esizeList as + esize c) - esize c =
      P.length + esizeList as := by omega
  rw [hsub]
  have hroots : ∀ pre a post, as = pre ++ a :: post →
      lenP
        (P ++ (buildArgs P.length as ++ (buildE (P.length + esizeList as) c ++
          Ast.call (P.length + esizeList as + esize c - 1) 0 as.length 0 :: Q)))
        (P.length + esizeList pre + esize a - 1) = esize a := by
    intro pre a post hdec
    have hA : buildArgs P.length as =
        buildArgs P.length pre ++
          (buildE (P.length + esizeList pre) a ++
            buildArgs (P.length + esizeList pre + esize a) post) := by
      rw [hdec, buildArgs_append]
      simp [buildArgs, List.append_assoc]
    rw [hA]
    have hih := lenF_build a (P ++ buildArgs P.length pre)
      (buildArgs (P.length + esizeList pre + esize a) post ++
        (buildE (P.length + esizeList as) c ++
          Ast.call (P.length + esizeList as + esize c - 1) 0 as.length 0 :: Q))
      (P.length + esizeList pre + esize a - 1 + 1)
      (by have := esize_pos a; omega)
    simp only [List.append_assoc, List.length_append, buildArgs_length] at hih
    simp only [List.append_assoc]
    exact hih
  rw [childLoop_args _ as P.length hroots, List.reverse_reverse]

/-- `len` at the callee root of a built call subtree gives the callee size. -/
theorem lenP_build_callee (c : Expr) (as : List Expr) (P Q : Pool) :
    lenP (P ++ buildE P.length (.callE c as) ++ Q)
      (P.length + esizeList as + esize c - 1) = esize c := by
  simp only [buildE, List.append_assoc, List.singleton_append]
  have hih := lenF_build c (P ++ buildArgs P.length as)
    (Ast.call (P.length + esizeList as + esize c - 1) 0 as.length 0 :: Q)
    (P.length + esizeList as + esize c - 1 + 1) (by have := esize_pos c; omega)
  simp only [List.append_assoc, List.length_append, buildArgs_length] at hih
  exact hih

/-- Summing `len` over the argument roots of a built call subtree gives the
total size of the argument subtrees. -/
theorem lenP_build_args_sum (c : Expr) (as : List Expr) (P Q : Pool) :
    ((argRoots P.length as).map
      (lenP (P ++ buildE P.length (.callE c as) ++ Q))).sum = esizeList as := by
  apply argRoots_map_sum
  intro pre a post hdec
  simp only [buildE, List.append_assoc, List.singleton_append]
  have hA : buildArgs P.length as =
      buildArgs P.length pre ++
        (buildE (P.length + esizeList pre) a ++
          buildArgs (P.length + esizeList pre + esize a) post) := by
    rw [hdec, buildArgs_append]
    simp [buildArgs, List.append_assoc]
  rw [hA]
  have hih := lenF_build a (P ++ buildArgs P.length pre)
    (buildArgs (P.length + esizeList pre + esize a) post ++
      (buildE (P.length + esizeList as) c ++
        Ast.call (P.length + esizeList as + esize c - 1) 0 as.length 0 :: Q))
    (P.length + esizeList pre + esize a - 1 + 1)
    (by have := esize_pos a; omega)
  simp only [List.append_assoc, List.length_append, buildArgs_length] at hih
  simp only [List.append_assoc]
  exact hih

/-- C1: for every `Call` node built through the arena API with its callee
subtree and argument subtrees already appended in post-order (arguments
left-to-right, then the callee subtree immediately before the `Call` node),
`children` returns exactly the original left-to-right sequence of argument
root indices, for any number of arguments, arbitrarily nested argument
subtrees, and arbitrary arena contents before and after the subtree. -/
theorem children_returns_arg_roots (callee : Expr) (args : List Expr) (P Q : Pool) :
    childrenP (P ++ buildE P.length (.callE callee args) ++ Q)
      (P.length + esize (Expr.callE callee args) - 1) =
      some (argRoots P.length args) :=
  childrenP_build callee args P Q

/-- C2 (amended): for every `Call` node built through the arena API,
`len(call) = 1 + len(callee) + Σ len(child)` over the reconstructed
children, for arbitrarily deep nesting; the length is recomputed by this
recursive descent, not read from a cached value stored in the node (see the
counterexample `len_not_cached_counterexample`). -/
theorem len_call_recursive_sum (callee : Expr) (args : List Expr) (P Q : Pool) :
    ∃ cs,
      childrenP (P ++ buildE P.length (.callE callee args) ++ Q)
        (P.length + esize (Expr.callE callee args) - 1) = some cs ∧
      lenP (P ++ buildE P.length (.callE callee args) ++ Q)
        (P.length + esize (Expr.callE callee args) - 1) =
      1 + lenP (P ++ buildE P.length (.callE callee args) ++ Q)
            (P.length + esizeList args + esize callee - 1) +
        (cs.map (lenP (P ++ buildE P.length (.callE callee args) ++ Q))).sum := by
  refine ⟨argRoots P.length args, childrenP_build callee args P Q, ?_⟩
  rw [lenP_build, lenP_build_callee, lenP_build_args_sum]
  simp [esize]
  omega

/-- C2 (counterexample to the cached-length reading): two arenas, each
built through the arena API, whose `Call` nodes at index 3 are equal as
stored nodes (`Ast.call 2 0 1 0`) yet have different `len` (3 vs 4).  So
`len` of a `Call` is not read from a value cached in the node — in
particular `len ≠ 1 +` (the node's stored length field, 0 here) — it is
recomputed by descent through the arena. -/
theorem len_not_cached_counterexample :
    nodeAt ([Ast.integer 9] ++ buildE 1 (.callE (.ufuncE 7) [.intE 7])) 3 =
      Ast.call 2 0 1 0 ∧
    nodeAt (buildE 0 (.callE (.lamE 5 (.ufuncE 7)) [.intE 7])) 3 =
      Ast.call 2 0 1 0 ∧
    lenP ([Ast.integer 9] ++ buildE 1 (.callE (.ufuncE 7) [.intE 7])) 3 = 3 ∧
    lenP (buildE 0 (.callE (.lamE 5 (.ufuncE 7)) [.intE 7])) 3 = 4 := by
  decide

/-! ## The string interner -/

theorem getD_append_lt {α : Type} (l l' : List α) (d : α) (i : Nat)
    (h : i < l.length) : (l ++ l').getD i d = l.getD i d := by
  simp [List.getD, List.getElem?_append, h]

theorem getD_concat {α : Type} (l : List α) (a d : α) :
    (l ++ [a]).getD l.length d = a := by
  simp [List.getD, List.getElem?_append_right (le_refl l.length)]

/-- The interning state inside `AstPool` (`string_pool: Vec<String>` and
`string_map: HashMap<String, NameIdx>`, `src/ast/pool.rs`); the hash map is
modelled as an association list with insertion at the front. -/
structure Interner where
  stringPool : List String
  stringMap : List (String × Nat)

/-- `AstPool::intern_string` (`src/ast/pool.rs` lines 114–123): return the
existing handle if the string is present, otherwise append it to the pool
and record the new handle. -/
def Interner.internString (st : Interner) (s : String) : Nat × Interner :=
  match st.stringMap.lookup s with
  | some i => (i, st)
  | none =>
    (st.stringPool.length,
     ⟨st.stringPool ++ [s], (s, st.stringPool.length) :: st.stringMap⟩)

/-- `AstPool::get_string` (`src/ast/pool.rs` lines 125–127); the Rust code
uses `get_unchecked`, totalised here with `""`. -/
def Interner.getString (st : Interner) (i : Nat) : String :=
  st.stringPool.getD i ""

/-- The interner invariant: every map entry points inside the pool at its
own string.  It holds for the empty interner of `AstPool::new` and is
preserved by `intern_string`. -/
def Interner.Wf (st : Interner) : Prop :=
  ∀ p ∈ st.stringMap, p.2 < st.stringPool.length ∧
    st.stringPool.getD p.2 "" = p.1

theorem lookup_some_mem {l : List (String × Nat)} {s : String} {i : Nat}
    (h : l.lookup s = some i) : (s, i) ∈ l := by
  induction l with
  | nil => simp [List.lookup] at h
  | cons p l ih =>
    obtain ⟨k, v⟩ := p
    rw [List.lookup] at h
    cases hk : s == k with
    | true =>
      rw [hk] at h
      simp only [Option.some.injEq] at h
      have hs : s = k := eq_of_beq hk
      subst hs
      subst h
      exact List.mem_cons_self _ _
    | false =>
      rw [hk] at h
      exact List.mem_cons_of_mem _ (ih h)

theorem internString_found (st : Interner) {s : String} {i : Nat}
    (h : st.stringMap.lookup s = some i) : st.internString s = (i, st) := by
  simp [Interner.internString, h]

theorem internString_fresh (st : Interner) {s : String}
    (h : st.stringMap.lookup s = none) :
    st.internString s =
      (st.stringPool.length,
       ⟨st.stringPool ++ [s], (s, st.stringPool.length) :: st.stringMap⟩) := by
  simp [Interner.internString, h]

/-- C9: interning is a deduplicating round-trip.  On every well-formed
interner state: `get_string (intern_string s) = s`; interning `s` a second
time returns the same handle and the same state (in particular the string
pool does not grow); well-formedness is preserved; the pool only ever grows
by appending, so existing handles are never moved or reused; and any
string distinct from `s` receives a distinct handle. -/
theorem intern_string_roundtrip (st : Interner) (s : String) (hwf : st.Wf) :
    Interner.getString (st.internString s).2 (st.internString s).1 = s ∧
    Interner.internString (st.internString s).2 s = st.internString s ∧
    Interner.Wf (st.internString s).2 ∧
    (∃ ext, (st.internString s).2.stringPool = st.stringPool ++ ext) ∧
    (∀ t, t ≠ s →
      (Interner.internString (st.internString s).2 t).1 ≠ (st.internString s).1) := by
  cases h : st.stringMap.lookup s with
  | some i =>
    have hmem := hwf _ (lookup_some_mem h)
    have heq : st.internString s = (i, st) := internString_found st h
    rw [heq]
    refine ⟨hmem.2, by rw [heq], hwf, ⟨[], by simp⟩, ?_⟩
    intro t ht
    cases h2 : st.stringMap.lookup t with
    | some j =>
      have heq2 : st.internString t = (j, st) := internString_found st h2
      rw [heq2]
      have hmem2 := hwf _ (lookup_some_mem h2)
      intro hji
      simp only at hji hmem2 hmem
      apply ht
      rw [← hmem2.2, hji, hmem.2]
    | none =>
      have heq2 := internString_fresh st h2
      rw [heq2]
      simp only
      have hi := hmem.1
      omega
  | none =>
    have heq := internString_fresh st h
    rw [heq]
    simp only
    refine ⟨getD_concat st.stringPool s "", ?_, ?_, ⟨[s], rfl⟩, ?_⟩
    · have hl : List.lookup s ((s, st.stringPool.length) :: st.stringMap) =
          some st.stringPool.length := by
        simp [List.lookup]
      exact internString_found _ hl
    · intro p hp
      rcases List.mem_cons.mp hp with hp1 | hp2
      · subst hp1
        refine ⟨by simp, getD_concat st.stringPool s ""⟩
      · have h1 := hwf _ hp2
        refine ⟨by simp; omega, ?_⟩
        rw [getD_append_lt _ _ _ _ h1.1]
        exact h1.2
    · intro t ht
      have hl : List.lookup t ((s, st.stringPool.length) :: st.stringMap) =
          List.lookup t st.stringMap := by
        have hne : (t == s) = false := by
          rw [beq_eq_false_iff_ne]
          exact ht
        simp [List.lookup, hne]
      cases h2 : st.stringMap.lookup t with
      | some j =>
        have heq2 : Interner.internString
            ⟨st.stringPool ++ [s], (s, st.stringPool.length) :: st.stringMap⟩ t =
            (j, ⟨st.stringPool ++ [s], (s, st.stringPool.length) :: st.stringMap⟩) := by
          apply internString_found
          rw [hl]
          exact h2
        rw [heq2]
        have hmem2 := hwf _ (lookup_some_mem h2)
        simp only
        have hj := hmem2.1
        omega
      | none =>
        have heq2 := internString_fresh
          ⟨st.stringPool ++ [s], (s, st.stringPool.length) :: st.stringMap⟩
          (show List.lookup t ((s, st.stringPool.length) :: st.stringMap) = none by
            rw [hl]; exact h2)
        rw [heq2]
        simp only
        simp

/-- Witness for C9 at a concrete state: the empty interner of
`AstPool::new` is well-formed and interning `"add"` round-trips. -/
theorem intern_string_roundtrip_witness :
    Interner.Wf ⟨[], []⟩ ∧
    Interner.getString ((Interner.internString ⟨[], []⟩ "add").2)
      ((Interner.internString ⟨[], []⟩ "add").1) = "add" :=
  ⟨(by intro p hp; cases hp),
   ((intern_string_roundtrip ⟨[], []⟩ "add" (by intro p hp; cases hp)).1)⟩

/-! ## The runtime: values, error traces, compiled closures

`CompiledFunction` (`src/compiler/function.rs`) pairs a closure over the
value stack with a `param_count`.  The closures produced by the compiler
have finitely many shapes, one per `compile_*` function; `Code` is the
deep embedding of those shapes, and `runC` executes them against a stack.
The stack is a `List Value` with the top at the head (Rust pushes at the
end of its `Vec`). -/

/-- `ErrTrace` (`src/compiler/function.rs` lines 5–25): a message plus an
optional wrapped cause. -/
inductive ErrTrace where
  | mk (message : String) (child : Option ErrTrace)
  deriving Repr

/-- `ErrTrace::new`. -/
def ErrTrace.new (m : String) : ErrTrace := .mk m none

/-- `ErrTrace::wrap`. -/
def ErrTrace.wrap (e : ErrTrace) (m : String) : ErrTrace := .mk m (some e)

/-- How a run can fail: a recoverable `Err(ErrTrace)` returned to the
caller, a Rust panic (which aborts the process), or fuel exhaustion (a
modelling artifact; a completed run never reports it). -/
inductive Fail where
  | err (e : ErrTrace)
  | panicked (msg : String)
  | fuelOut
  deriving Repr

mutual

/-- The closure shapes produced by `compile_expr` and its helpers
(`src/compiler/executor.rs`): one constructor per `compile_*` function,
plus the pass-1 placeholder of `CompiledFunctions::compile`. -/
inductive Code where
  | pushInt (i : Int)
  | pushParam (paramIndex : Nat)
  | pushPrim (p : PrimitiveFunc)
  | pushFunRef (funIdx : Nat)
  | mkLambda (captureOffsets : List Nat) (paramCount : Nat) (body : Code)
  | callC (callee : Code) (args : List Code)
  | defWrap (paramCount : Nat) (body : Code)
  | placeholderC
  deriving Repr

/-- `Value` (`src/value/mod.rs`).  Rust's single `Fun(CompiledFunction)`
variant is split by the provenance of the pushed closure, which determines
its behaviour and `param_count`: a function-table reference
(`compile_user_func`), the curried primitive closure
(`compile_primitive_func`), or a lambda value carrying its captured
values (`compile_lambda`). -/
inductive Value where
  | unit
  | int (i : Int)
  | boolV (b : Bool)
  | charV (c : Char)
  | fnTable (idx : Nat)
  | fnPrim (p : PrimitiveFunc)
  | fnLam (captures : List Value) (paramCount : Nat) (body : Code)
  deriving Repr

end

abbrev Stack := List Value

/-- The function table of `CompiledFunctions` after compilation: one
`(param_count, body)` entry per function definition. -/
abbrev Tbl := List (Nat × Code)

/-- A run returns the final stack or a failure paired with the stack at
the moment of bailout (the Rust closures mutate `mem` in place, so the
caller observes that stack on `Err`). -/
abbrev Res := Except (Fail × Stack) Stack

/-- `Vec::truncate n` on a top-at-head stack: keep the bottom `n` values;
a no-op when the stack is already shorter. -/
def stackTrunc (n : Nat) (s : Stack) : Stack := s.drop (s.length - n)

/-- The panic message of `Option::unwrap` on `None`. -/
def unwrapMsg : String := "called `Option::unwrap()` on a `None` value"

/-- The panic message of `usize` subtraction underflow (debug build). -/
def subOverflowMsg : String := "attempt to subtract with overflow"

def primMsg : PrimitiveFunc → String
  | .add => "Wrong Argument type for `add` "
  | .multiply => "Wrong Argument type for `mul` "

def primApply : PrimitiveFunc → Int → Int → Int
  | .add, a, b => a + b
  | .multiply, a, b => a * b

/-- The arity-2 closure built by `compile_primitive_func`
(`src/compiler/executor.rs` lines 452–501): pop `b`, pop `a` (each pop is
`unwrap`ped, so a missing operand PANICS), then either push the integer
result or return the recoverable type-mismatch error. -/
def primStep (p : PrimitiveFunc) (s : Stack) : Res :=
  match s with
  | b :: a :: rest =>
    match a, b with
    | .int av, .int bv => .ok (Value.int (primApply p av bv) :: rest)
    | _, _ => .error (.err (ErrTrace.new (primMsg p)), rest)
  | [_] => .error (.panicked unwrapMsg, [])
  | [] => .error (.panicked unwrapMsg, [])

/-- `fun.param_count` of a pushed function value: a table reference reads
the entry made in pass 1, the primitive closure is arity 2, a lambda value
carries its own count.  `none` for non-function values. -/
def valueParamCount (tbl : Tbl) : Value → Option Nat
  | .fnTable i => (tbl.get? i).map (·.1)
  | .fnPrim _ => some 2
  | .fnLam _ pc _ => some pc
  | _ => none

/-- The common tail of `compile_call`'s closure and of the lambda closure:
given the run after invoking a callee (or body), pop the single result
(`stack underflow` if absent), truncate back to the recorded length and
push the result. -/
def afterCall (startLen : Nat) (r : Res) : Res :=
  match r with
  | .error e => .error e
  | .ok s4 =>
    match s4 with
    | [] => .error (.err (ErrTrace.new "stack underflow"), [])
    | rv :: s5 => .ok (rv :: stackTrunc startLen s5)

/-- Executes a compiled closure against a stack, with a fuel bound on the
recursion (recursive programs may diverge; a completed run never reports
`fuelOut`).  Each arm mirrors the closure built by the corresponding
`compile_*` function in `src/compiler/executor.rs`:

* `pushParam`: `let l = mem.len() - 1` first (a debug-build panic on an
  empty stack), then the bounds check returning the recoverable error,
  then push a copy of the value `paramIndex` below the top.
* `mkLambda`: `let len = mem.len() - 1` (same panic on empty), copy each
  capture off the live stack (`mem[len - i]`, a panic when out of range),
  push the lambda value.
* `callC`: record the start length; evaluate the argument closures — in
  REVERSED order (`child_lambdas.iter().rev()`); evaluate the callee; pop
  the function value; require the whole stack to hold at least
  `param_count` values, else the recoverable not-enough-arguments error;
  invoke it; pop the result, truncate to the start length, push the
  result.
* `defWrap`: run the body (`compile_fun_def` and the pass-2 patch both
  delegate to the compiled body).
* `placeholderC`: the pass-1 placeholder panics. -/
def runC (tbl : Tbl) : Nat → Code → Stack → Res
  | 0, _, s => .error (.fuelOut, s)
  | fuel + 1, code, s =>
    match code with
    | .pushInt i => .ok (Value.int i :: s)
    | .pushParam pidx =>
      match s with
      | [] => .error (.panicked subOverflowMsg, [])
      | _ =>
        if s.length ≤ pidx then
          .error (.err (ErrTrace.new ("parameter access out of bounds: index " ++
            toString pidx ++ " but memory size " ++ toString s.length)), s)
        else .ok (s.getD pidx Value.unit :: s)
    | .pushPrim p => .ok (Value.fnPrim p :: s)
    | .pushFunRef i => .ok (Value.fnTable i :: s)
    | .mkLambda offs pc body =>
      match s with
      | [] => .error (.panicked subOverflowMsg, [])
      | _ =>
        if ∀ i ∈ offs, i < s.length then
          .ok (Value.fnLam (offs.map (fun i => s.getD i Value.unit)) pc body :: s)
        else .error (.panicked subOverflowMsg, s)
    | .defWrap _ body => runC tbl fuel body s
    | .placeholderC => .error (.panicked "Function is not implemented yet", s)
    | .callC callee args =>
      let startLen := s.length
      match args.reverse.foldl
          (fun r c => match r with
            | .ok s' => runC tbl fuel c s'
            | e => e)
          (Except.ok s : Res) with
      | .error e => .error e
      | .ok s1 =>
        match runC tbl fuel callee s1 with
        | .error e => .error e
        | .ok s2 =>
          match s2 with
          | [] => .error (.err (ErrTrace.new "stack underflow"), [])
          | v :: s3 =>
            match valueParamCount tbl v with
            | none =>
              .error (.err (ErrTrace.new
                "expected function or lambda but got something else"), s3)
            | some pc =>
              if s3.length < pc then
                .error (.err (ErrTrace.new
                  ("not enough arguments for function call: expected " ++
                    toString pc ++ ", got " ++ toString s3.length)), s3)
              else
                match v with
                | .fnTable i =>
                  match tbl.get? i with
                  | some e => afterCall startLen (runC tbl fuel e.2 s3)
                  | none => .error (.panicked "index out of bounds", s3)
                | .fnPrim p => afterCall startLen (primStep p s3)
                | .fnLam caps _ body =>
                  afterCall startLen
                    (afterCall s3.length (runC tbl fuel body (caps.reverse ++ s3)))
                | _ => .error (.panicked "unreachable", s3)

/-! ## The compilation context and capture analysis -/

/-- `CompilationContext` (`src/compiler/executor.rs` lines 17–66): virtual
stack height, frame bases and per-frame argument counts (both `Vec`s,
pushed at the end). -/
structure Ctx where
  stackSize : Nat
  frames : List Nat
  argCount : List Nat
  deriving Repr

/-- `CompilationContext::new`. -/
def Ctx.new : Ctx := ⟨0, [0], [0]⟩

/-- `CompilationContext::alloc`: `self.stack_size += n`. -/
def Ctx.alloc (c : Ctx) (n : Nat) : Ctx := { c with stackSize := c.stackSize + n }

/-- `CompilationContext::dealloc`.  The source reads
`self.stack_size.sub(n);` — it computes `stack_size - n` and DISCARDS the
result (`Sub::sub` returns a value; nothing is assigned), so the method
mutates nothing.  The argument `n` is unused beyond that dead computation
(which in a debug build would panic if `n > stack_size`). -/
def Ctx.dealloc (c : Ctx) (_n : Nat) : Ctx := c

/-- `CompilationContext::calculate_param_offset` (lines 45–53).  When
`level` equals the number of frames, the offset is measured from the
frame base `frames[level - 1]`; otherwise from
`frames.last() + arg_count.last()` — the `level` argument is not used to
select the frame in that branch.  `Vec` indexing / `unwrap` panics are
totalised with default 0 (never reached on the compiled paths considered),
and `usize` subtraction is `Nat` truncated subtraction. -/
def Ctx.calcParamOffset (c : Ctx) (level offset : Nat) : Nat :=
  if level = c.frames.length then
    c.stackSize - (c.frames.getD (level - 1) 0 + offset)
  else
    c.stackSize - (c.frames.getLastD 0 + c.argCount.getLastD 0 + offset)

/-- `CompilationContext::enter_scope`: push the current height as the new
frame base, push the argument count, grow the height by it. -/
def Ctx.enterScope (c : Ctx) (paramCount : Nat) : Ctx :=
  ⟨c.stackSize + paramCount, c.frames ++ [c.stackSize], c.argCount ++ [paramCount]⟩

/-- `CompilationContext::exit_scope`: pop the last frame base and restore
the height to it.  Note the source pops `frames` but never `arg_count`. -/
def Ctx.exitScope (c : Ctx) : Ctx :=
  ⟨c.frames.getLastD 0, c.frames.dropLast, c.argCount⟩

/-- `HashSet::insert` on the accumulated capture set. -/
def insertPair (q : Nat × Nat) (l : List (Nat × Nat)) : List (Nat × Nat) :=
  if q ∈ l then l else q :: l

/-- `CompiledFunctions::collect_captured_vars` (`src/compiler/executor.rs`
lines 97–123), with a fuel parameter for the descent: a `ParamRef` is
collected when `level < lambda_level && level > 0`; a `Lambda` recurses
into its body with `lambda_level + 1`; every other node recurses into its
`children` (for a `Call` these are the reconstructed arguments only — the
callee subtree is not traversed). -/
def collectCapturedVars (pool : Pool) :
    Nat → Nat → Nat → List (Nat × Nat) → List (Nat × Nat)
  | 0, _, _, acc => acc
  | fuel + 1, node, lambdaLevel, acc =>
    match nodeAt pool node with
    | .paramRef _ level offset =>
      if level < lambdaLevel ∧ 0 < level then insertPair (level, offset) acc else acc
    | .lambda _ b => collectCapturedVars pool fuel b (lambdaLevel + 1) acc
    | _ =>
      match childrenP pool node with
      | some cs =>
        cs.foldl (fun a c => collectCapturedVars pool fuel c lambdaLevel a) acc
      | none => acc

/-- The sort order of `find_captured_vars`: by level, then by offset. -/
def capRel (a b : Nat × Nat) : Prop :=
  a.1 < b.1 ∨ (a.1 = b.1 ∧ a.2 ≤ b.2)

instance : DecidableRel capRel := fun a b => by
  unfold capRel
  infer_instance

instance : IsTotal (Nat × Nat) capRel :=
  ⟨fun a b => by unfold capRel; omega⟩

instance : IsTrans (Nat × Nat) capRel :=
  ⟨fun a b c hab hbc => by unfold capRel at *; omega⟩

/-- `CompiledFunctions::find_captured_vars` (lines 75–95): collect the
deduplicated `(level, offset)` pairs, then sort by `(level, offset)`. -/
def findCapturedVars (pool : Pool) (node : Nat) (lambdaLevel : Nat) :
    List (Nat × Nat) :=
  List.insertionSort capRel (collectCapturedVars pool (node + 1) node lambdaLevel [])

/-! ## Lowering -/

/-- `if let FunctionDef { param_count, .. } = pool[ast_idx] { param_count }
else { 0 }` from `CompiledFunctions::compile` pass 1. -/
def defParamCount (pool : Pool) (astIdx : Nat) : Nat :=
  match nodeAt pool astIdx with
  | .functionDef _ pc _ => pc
  | _ => 0

/-- `CompiledFunctions::compile_expr` (`src/compiler/executor.rs` lines
151–336 with its helpers), with a fuel parameter for the descent through
the arena.  `fdefs` is the `function_defs` map of `CompiledFunctions`
(name handle → function-table index, built in pass 1).  Returns the
compiled closure and the updated context, or `None` (an undefined user
function, or — a modelling artifact — fuel exhaustion). -/
def compileExpr (fdefs : List (Nat × Nat)) (pool : Pool) :
    Nat → Nat → Ctx → Option (Code × Ctx)
  | 0, _, _ => none
  | fuel + 1, node, ctx =>
    match nodeAt pool node with
    | .integer i => some (.pushInt i, ctx.alloc 1)
    | .paramRef _ level offset =>
      some (.pushParam (ctx.calcParamOffset level offset), ctx.alloc 1)
    | .primitiveFunc p => some (.pushPrim p, ctx.alloc 1)
    | .userFunc n =>
      match fdefs.lookup n with
      | some i => some (.pushFunRef i, ctx.alloc 1)
      | none => none
    | .lambda pc b =>
      let ctx1 := ctx.enterScope pc
      let capturedOffs := (findCapturedVars pool node ctx1.frames.length).map
        (fun q => ctx1.calcParamOffset q.1 q.2)
      match compileExpr fdefs pool fuel b ctx1 with
      | none => none
      | some (bodyCode, ctx2) =>
        some (.mkLambda capturedOffs pc bodyCode, ctx2.exitScope.alloc 1)
    | .call fi _ _ _ =>
      match childrenP pool node with
      | none => none
      | some cs =>
        match compileExpr fdefs pool fuel fi ctx with
        | none => none
        | some (funcCode, ctx1) =>
          match cs.foldl
              (fun st c =>
                match st with
                | none => none
                | some (codes, cx) =>
                  match compileExpr fdefs pool fuel c cx with
                  | none => none
                  | some (code, cx') => some (codes ++ [code], cx'))
              (some (([] : List Code), ctx1)) with
          | none => none
          | some (argCodes, ctx2) =>
            some (.callC funcCode argCodes, ctx2.dealloc (cs.length + 1))
    | .functionDef _ pc b =>
      match compileExpr fdefs pool fuel b (ctx.enterScope pc) with
      | none => none
      | some (bodyCode, ctx2) => some (.defWrap pc bodyCode, ctx2.exitScope)

/-- The `function_defs` map of `CompiledFunctions` built in pass 1: each
definition's name handle mapped to its position in the function table. -/
def pass1Defs (defs : List (Nat × Nat)) : List (Nat × Nat) :=
  defs.enum.map (fun p => (p.2.1, p.1))

/-- `CompiledFunctions::compile` (lines 338–377): pass 1 creates one
placeholder entry per definition carrying its `param_count`; pass 2
overwrites each entry's body with the compiled function body (a failed
compile leaves the panicking placeholder, as in the source).  `defs` is
the pool's `function_defs` as an association list in insertion order (the
Rust `HashMap` iterates in arbitrary order; the result does not depend on
it because entries are addressed by name). -/
def compileProgram (fuel : Nat) (pool : Pool) (defs : List (Nat × Nat)) : Tbl :=
  defs.map (fun d =>
    let pc := defParamCount pool d.2
    match nodeAt pool d.2 with
    | .functionDef _ _ b =>
      match compileExpr (pass1Defs defs) pool fuel b Ctx.new with
      | some (code, _) => (pc, code)
      | none => (pc, .placeholderC)
    | _ => (pc, .placeholderC))

/-- `CompiledFunctions::execute` (lines 388–403): compile the expression
with a fresh context, run it on an empty stack, return the top of the
final stack.  A failed compile yields `ok none` (Rust's `None`); a
runtime failure is surfaced as the failure itself (the Rust code prints
it and returns `None`; the distinction is kept here). -/
def executeE (fuel : Nat) (pool : Pool) (defs : List (Nat × Nat)) (exprIdx : Nat) :
    Except (Fail × Stack) (Option Value) :=
  match compileExpr (pass1Defs defs) pool fuel exprIdx Ctx.new with
  | none => .ok none
  | some (code, _) =>
    match runC (compileProgram fuel pool defs) fuel code [] with
    | .ok s => .ok s.head?
    | .error e => .error e

/-! ## Concrete programs

The arenas below are written exactly as `parse_program` lowers the source
text through the builder API (children before parents; binary operators
via `add_add`/`add_multiply`, which append the primitive node then the
call node; calls via arguments, then the callee node, then the call
node).  Name handles follow the interner's first-come numbering. -/

/-- `fn muladd(x,y,z){x*y+z} fn test(){muladd(1,2,3)}`.
Names: muladd=0, x=1, y=2, z=3, test=4.  The body of `test` is node 12;
the body of `muladd` is node 6. -/
def muladdPool1 : Pool :=
  [.paramRef 1 1 0, .paramRef 2 1 1, .primitiveFunc .multiply, .call 2 0 2 0,
   .paramRef 3 1 2, .primitiveFunc .add, .call 5 0 2 0, .functionDef 0 3 6,
   .integer 1, .integer 2, .integer 3, .userFunc 0, .call 11 0 3 0,
   .functionDef 4 0 12]

/-- `function_defs` of `muladdPool1`, in insertion order. -/
def muladdDefs1 : List (Nat × Nat) := [(0, 7), (4, 13)]

/-- `fn muladd(x,y,z){x*y+z} fn test(){muladd(1,2,muladd(3,4,5))}`.
The body of `test` is node 16. -/
def muladdPool2 : Pool :=
  [.paramRef 1 1 0, .paramRef 2 1 1, .primitiveFunc .multiply, .call 2 0 2 0,
   .paramRef 3 1 2, .primitiveFunc .add, .call 5 0 2 0, .functionDef 0 3 6,
   .integer 1, .integer 2, .integer 3, .integer 4, .integer 5,
   .userFunc 0, .call 13 0 3 0, .userFunc 0, .call 15 0 3 0,
   .functionDef 4 0 16]

/-- `function_defs` of `muladdPool2`. -/
def muladdDefs2 : List (Nat × Nat) := [(0, 7), (4, 17)]

/-- `fn curry(a,b){ lambda c d e { lambda f { a+b+c+d+e+f } } }`.
Names: curry=0, a=1, b=2, c=3, d=4, e=5, f=6.  Node 16 is the inner
lambda (`lambda f {…}`), node 17 the outer one.  When `compile_lambda`
reaches node 16 it has entered three scopes, so it calls
`find_captured_vars(16, pool, 3)`. -/
def curryPool : Pool :=
  [.paramRef 1 1 0, .paramRef 2 1 1, .primitiveFunc .add, .call 2 0 2 0,
   .paramRef 3 2 0, .primitiveFunc .add, .call 5 0 2 0,
   .paramRef 4 2 1, .primitiveFunc .add, .call 8 0 2 0,
   .paramRef 5 2 2, .primitiveFunc .add, .call 11 0 2 0,
   .paramRef 6 3 0, .primitiveFunc .add, .call 14 0 2 0,
   .lambda 1 15, .lambda 3 16, .functionDef 0 2 17]

/-- `fn g(x){x} fn …` fragment: the arena of `g(1,2)` — a call handing a
1-parameter function two arguments.  Names: g=0, x=1; call node 5. -/
def tooManyArgsPool : Pool :=
  [.paramRef 1 1 0, .functionDef 0 1 0, .integer 1, .integer 2,
   .userFunc 0, .call 4 0 2 0]

/-- `fn h(x,y){x}` with the call `h(1)` — a 2-parameter function handed
one argument.  Names: h=0, x=1, y=2; call node 4. -/
def tooFewArgsPool : Pool :=
  [.paramRef 1 1 0, .functionDef 0 2 0, .integer 1, .userFunc 0, .call 3 0 1 0]

/-! ## C6: the muladd programs evaluate to 5 and 19 -/

/-- C6: compiling the two-definition program
`fn muladd(x,y,z){x*y+z} fn test(){muladd(1,2,3)}` through the function
table and evaluating the body of `test` returns integer 5; with the body
`muladd(1,2,muladd(3,4,5))` it returns integer 19. -/
theorem muladd_programs_evaluate :
    executeE 100 muladdPool1 muladdDefs1 12 = .ok (some (Value.int 5)) ∧
    executeE 100 muladdPool2 muladdDefs2 16 = .ok (some (Value.int 19)) :=
  ⟨rfl, rfl⟩

/-! ## C5: `dealloc` does not decrease the virtual stack size -/

/-- C5 (the code at the failing input): `alloc(n)` does increase
`stack_size` by `n`, but `dealloc(n)` leaves `stack_size` unchanged for
every context and every `n` — `self.stack_size.sub(n);` discards its
result — so `alloc(3)` followed by `dealloc(3)` from the fresh context
leaves `stack_size` at 3, not 0, and `dealloc(3)` on a context of height
5 leaves 5. -/
theorem dealloc_noop_failing_input :
    (∀ (c : Ctx) (n : Nat), (c.alloc n).stackSize = c.stackSize + n) ∧
    ((Ctx.new.alloc 3).dealloc 3).stackSize = 3 ∧
    (Ctx.dealloc ⟨5, [0], [0]⟩ 3).stackSize = 5 ∧
    (∀ (c : Ctx) (n : Nat), (c.dealloc n).stackSize = c.stackSize) :=
  ⟨fun _ _ => rfl, rfl, rfl, fun _ _ => rfl⟩

/-! ## C7: primitive closures -/

/-- C7 (counterexample): invoking the compiled `add` closure on a stack
holding fewer than two operands does not yield a recoverable
stack-underflow error — it PANICS (`mem.pop().unwrap()` on `None`),
aborting the process. -/
theorem prim_short_stack_panics :
    primStep .add [Value.int 1] = .error (.panicked unwrapMsg, []) ∧
    primStep .multiply [] = .error (.panicked unwrapMsg, []) ∧
    ∀ (e : ErrTrace) (s : Stack), primStep .add [Value.int 1] ≠ .error (.err e, s) := by
  refine ⟨rfl, rfl, ?_⟩
  intro e s h
  simp [primStep] at h

/-- Whether a runtime value is an integer. -/
def Value.isIntV : Value → Bool
  | .int _ => true
  | _ => false

/-- C7 (amended): if the two operands popped by a compiled primitive
closure are not both integers, the closure returns the recoverable
type-mismatch `ErrTrace` (a message with an optional wrapped cause),
propagated to the caller — not a panic. -/
theorem prim_type_mismatch_recoverable (p : PrimitiveFunc) (a b : Value) (s : Stack)
    (h : a.isIntV = false ∨ b.isIntV = false) :
    primStep p (b :: a :: s) = .error (.err (ErrTrace.new (primMsg p)), s) := by
  cases a <;> cases b <;> simp_all [primStep, Value.isIntV]

/-- Witness for C7's amended theorem: `add` applied with a boolean
operand returns the recoverable type-mismatch error. -/
theorem prim_type_mismatch_recoverable_witness :
    primStep .add [Value.int 0, Value.boolV true] =
      .error (.err (ErrTrace.new (primMsg .add)), []) :=
  prim_type_mismatch_recoverable .add (Value.boolV true) (Value.int 0) [] (Or.inl rfl)

/-! ## C3: the stack height after a call -/

/-- C3 (counterexample): a compiled `Call` closure that executes
successfully yet leaves the stack one element SHORTER than before.  The
arena holds `Call(add, 0 arguments)` (a call the external checker would
reject, but `compile_call` lowers it without complaint); running the
compiled closure on a stack of height 2 succeeds — the primitive consumes
the two values below the call's own frame — and ends at height 1, not
2 + 1. -/
theorem call_height_counterexample :
    compileExpr [] [Ast.primitiveFunc .add, Ast.call 0 0 0 0] 9 1 Ctx.new =
      some (Code.callC (Code.pushPrim .add) [], ⟨1, [0], [0]⟩) ∧
    runC [] 9 (Code.callC (Code.pushPrim .add) []) [Value.int 1, Value.int 2] =
      .ok [Value.int 3] ∧
    ([Value.int 3] : Stack).length ≠
      ([Value.int 1, Value.int 2] : Stack).length + 1 :=
  ⟨rfl, rfl, by decide⟩

theorem stackTrunc_length (n : Nat) (s : Stack) :
    (stackTrunc n s).length = min n s.length := by
  simp [stackTrunc]
  omega

theorem afterCall_ok {startLen : Nat} {r : Res} {s' : Stack}
    (h : afterCall startLen r = .ok s') :
    ∃ rv s5, s' = rv :: stackTrunc startLen s5 := by
  unfold afterCall at h
  split at h
  · cases h
  · split at h
    · cases h
    · cases h
      exact ⟨_, _, rfl⟩

/-- C3 (amended): every successfully executed compiled `Call` closure
records the starting height, evaluates the arguments and callee, invokes
the callee, pops one result, truncates back to the recorded height and
pushes that result — so the final stack is one result on top of the
truncation, of height `min (before, height left by the callee) + 1`;
this equals before + 1 exactly when the invoked callee did not consume
values below the recorded height (the counterexample
`call_height_counterexample` shows a successful call ending one SHORTER),
and it never exceeds before + 1. -/
theorem call_success_stack_shape (tbl : Tbl) (f : Nat) (callee : Code)
    (args : List Code) (s s' : Stack)
    (h : runC tbl (f + 1) (.callC callee args) s = .ok s') :
    ∃ rv s5, s' = rv :: stackTrunc s.length s5 ∧
      s'.length = min s.length s5.length + 1 ∧ s'.length ≤ s.length + 1 := by
  simp only [runC] at h
  repeat' split at h
  all_goals try cases h
  all_goals
    obtain ⟨rv, s5, rfl⟩ := afterCall_ok h
  all_goals
    refine ⟨rv, s5, rfl, ?_, ?_⟩ <;> simp [stackTrunc_length]

/-- Witness for C3's amended theorem at a successful concrete call:
`add(1, 2)` on the empty stack ends as `[3]`. -/
theorem call_success_stack_shape_witness :
    ∃ rv s5, ([Value.int 3] : Stack) = rv :: stackTrunc ([] : Stack).length s5 ∧
      ([Value.int 3] : Stack).length = min ([] : Stack).length s5.length + 1 ∧
      ([Value.int 3] : Stack).length ≤ ([] : Stack).length + 1 :=
  call_success_stack_shape [] 8 (.pushPrim .add) [.pushInt 1, .pushInt 2] []
    [Value.int 3] rfl

/-! ## C8: arity checking at call sites -/

/-- C8 (counterexample): calling the 1-parameter function `g(x){x}` with
TWO arguments does not surface any arity-mismatch error — the call site
only checks that the stack is not too short, so the callee is invoked and
the call succeeds, returning 1. -/
theorem call_too_many_args_not_checked :
    executeE 100 tooManyArgsPool [(0, 1)] 5 = .ok (some (Value.int 1)) :=
  rfl

/-- C8 (amended): when the callee of a compiled `Call` evaluates to a
function value declaring MORE parameters than the whole stack holds after
the callee value is popped, the call returns the recoverable
not-enough-arguments error immediately: the error carries exactly the
stack as it was after the arguments and callee were evaluated and the
callee value popped, and the callee is never invoked.  (Supplying too
many arguments is NOT detected — see
`call_too_many_args_not_checked`.) -/
theorem call_too_few_args_error (tbl : Tbl) (f : Nat) (callee : Code)
    (args : List Code) (s s1 s3 : Stack) (v : Value) (pc : Nat)
    (hargs : args.reverse.foldl
      (fun r c => match r with
        | .ok s' => runC tbl f c s'
        | e => e) (Except.ok s : Res) = .ok s1)
    (hcallee : runC tbl f callee s1 = .ok (v :: s3))
    (hpc : valueParamCount tbl v = some pc)
    (hlt : s3.length < pc) :
    runC tbl (f + 1) (.callC callee args) s =
      .error (.err (ErrTrace.new ("not enough arguments for function call: expected " ++
        toString pc ++ ", got " ++ toString s3.length)), s3) := by
  simp only [runC, hargs, hcallee, hpc]
  rw [if_pos hlt]

/-- Witness for C8's amended theorem: `h(x,y){x}` called with the single
argument `1` errs with "expected 2, got 1", leaving exactly `[1]`. -/
theorem call_too_few_args_error_witness :
    runC (compileProgram 100 tooFewArgsPool [(0, 1)]) (99 + 1)
      (.callC (.pushFunRef 0) [.pushInt 1]) [] =
      .error (.err (ErrTrace.new ("not enough arguments for function call: expected " ++
        toString 2 ++ ", got " ++ toString 1)), [Value.int 1]) :=
  call_too_few_args_error (compileProgram 100 tooFewArgsPool [(0, 1)]) 99
    (.pushFunRef 0) [.pushInt 1] [] [Value.int 1] [Value.int 1]
    (Value.fnTable 0) 2 rfl rfl rfl (by decide)

/-! ## C4: the capture analyzer -/

/-- C4 (counterexample): on the curry program the capture set computed
for the inner lambda at compile time (`find_captured_vars(innerLambda,
pool, 3)`) contains `(3, 0)` — the inner lambda's OWN parameter `f`, at a
level not strictly below the lambda's nesting depth 3 — because the
analyzer is invoked on the lambda node itself and its `Lambda` arm
increments the depth once more before scanning the body.  So the set is
not "exactly the pairs with level < d": the spec's expected capture set
`a,b,c,d,e` is missing `f`. -/
theorem capture_includes_own_param_counterexample :
    findCapturedVars curryPool 16 3 =
      [(1, 0), (1, 1), (2, 0), (2, 1), (2, 2), (3, 0)] ∧
    (3, 0) ∈ findCapturedVars curryPool 16 3 ∧
    findCapturedVars curryPool 16 3 ≠ [(1, 0), (1, 1), (2, 0), (2, 1), (2, 2)] := by
  decide

/-- C4 (amended): for the curry program the inner lambda's capture set as
computed at compile time is exactly the deduplicated, `(level, offset)`-
sorted list `[(1,0),(1,1),(2,0),(2,1),(2,2),(3,0)]` — the enclosing slots
of `a,b,c,d,e` AND the lambda's own parameter `f` (the analyzer counts
depth upward as it descends into nested lambdas, starting from the
queried lambda node itself, and keeps any `ParamRef` with
`0 < level < running depth`); and the analyzer's output is always sorted
by `(level, offset)`. -/
theorem capture_curry_amended :
    findCapturedVars curryPool 16 3 =
      [(1, 0), (1, 1), (2, 0), (2, 1), (2, 2), (3, 0)] ∧
    ∀ (pool : Pool) (node lvl : Nat),
      (findCapturedVars pool node lvl).Sorted capRel :=
  ⟨by decide, fun pool node lvl => by
    unfold findCapturedVars
    exact List.sorted_insertionSort capRel _⟩

/-! ## C10: the dependency search

`AstPool::find_dependencies_recursive` (`src/ast/pool.rs` lines 36–66)
threads two `HashSet`s — the reported dependencies and the visited node
set — modelled as lists.  The recursion is guarded by a fuel parameter
returning `none` on exhaustion, and `pool.length + 1` fuel is proved
sufficient below. -/

/-- The `(dependencies, visited)` state of the recursive search. -/
structure DepSt where
  deps : List Nat
  visited : List Nat
  deriving Repr, DecidableEq

/-- The `for child_idx in children` loop of the search, over a given
one-step search function `go`. -/
def goListF (go : Nat → DepSt → Option DepSt) : List Nat → DepSt → Option DepSt
  | [], st => some st
  | c :: cs, st =>
    match go c st with
    | some st' => goListF go cs st'
    | none => none

/-- `AstPool::find_dependencies_recursive`: bail out on a visited node,
mark it visited; a `UserFunc` naming a defined function is added to the
dependency set and, when newly added, its definition is searched; a
`Call` searches its callee node; finally every node's `children` are
searched. -/
def goDeps (pool : Pool) (fdefs : List (Nat × Nat)) :
    Nat → Nat → DepSt → Option DepSt
  | 0, _, _ => none
  | fuel + 1, idx, st =>
    if idx ∈ st.visited then some st
    else
      match
        (match nodeAt pool idx with
         | .userFunc n =>
           match fdefs.lookup n with
           | some fAst =>
             if n ∈ st.deps then some (⟨st.deps, idx :: st.visited⟩ : DepSt)
             else goDeps pool fdefs fuel fAst ⟨n :: st.deps, idx :: st.visited⟩
           | none => some ⟨st.deps, idx :: st.visited⟩
         | .call fi _ _ _ => goDeps pool fdefs fuel fi ⟨st.deps, idx :: st.visited⟩
         | _ => some ⟨st.deps, idx :: st.visited⟩) with
      | none => none
      | some st2 =>
        match childrenP pool idx with
        | some cs => goListF (goDeps pool fdefs fuel) cs st2
        | none => some st2

/-- `AstPool::find_dependencies` (`src/ast/pool.rs` lines 23–34): resolve
the function name through the interner's map and the pool's
`function_defs`, then search from the definition node with fresh sets;
an unknown name yields the empty set. -/
def findDependencies (inter : Interner) (pool : Pool)
    (fdefs : List (Nat × Nat)) (functionName : String) : List Nat :=
  match inter.stringMap.lookup functionName with
  | some nameIdx =>
    match fdefs.lookup nameIdx with
    | some astIdx =>
      match goDeps pool fdefs (pool.length + 1) astIdx ⟨[], []⟩ with
      | some st => st.deps
      | none => []
    | none => []
  | none => []

/-- The number of in-range arena indices not yet visited: the termination
measure of the search. -/
def unvisCount (pool : Pool) (visited : List Nat) : Nat :=
  ((List.range pool.length).filter (fun i => i ∉ visited)).length

theorem nodeAt_oob {ns : Pool} {i : Nat} (h : ns.length ≤ i) :
    nodeAt ns i = .integer 0 := by
  simp [nodeAt, List.getElem?_eq_none h]

theorem length_filter_mono {α : Type} (l : List α) (p q : α → Bool)
    (h : ∀ a, p a = true → q a = true) :
    (l.filter p).length ≤ (l.filter q).length := by
  induction l with
  | nil => simp
  | cons b l ih =>
    cases hp : p b with
    | true =>
      have hq := h b hp
      simp [List.filter, hp, hq]
      omega
    | false =>
      cases hq : q b with
      | true => simp [List.filter, hp, hq]; omega
      | false => simp [List.filter, hp, hq]; omega

theorem length_filter_lt {α : Type} (l : List α) (p q : α → Bool)
    (h : ∀ a, p a = true → q a = true) (a : α) (ha : a ∈ l)
    (hq : q a = true) (hp : p a = false) :
    (l.filter p).length < (l.filter q).length := by
  induction l with
  | nil => cases ha
  | cons b l ih =>
    rcases List.mem_cons.mp ha with rfl | hal
    · simp only [List.filter, hp, hq]
      have hmono := length_filter_mono l p q h
      simp only [List.length_cons]
      omega
    · have hlt := ih hal
      cases hpb : p b with
      | true =>
        have hqb := h b hpb
        simp only [List.filter, hpb, hqb, List.length_cons]
        omega
      | false =>
        cases hqb : q b with
        | true =>
          simp only [List.filter, hpb, hqb, List.length_cons]
          omega
        | false =>
          simp only [List.filter, hpb, hqb]
          omega

theorem unvisCount_anti (pool : Pool) {v w : List Nat} (h : v ⊆ w) :
    unvisCount pool w ≤ unvisCount pool v := by
  apply length_filter_mono
  intro a ha
  simp only [decide_eq_true_eq] at ha ⊢
  intro hav
  exact ha (h hav)

theorem unvisCount_insert_lt (pool : Pool) {idx : Nat} {v : List Nat}
    (hrange : idx < pool.length) (hnv : idx ∉ v) :
    unvisCount pool (idx :: v) < unvisCount pool v := by
  refine length_filter_lt _ _ _ ?_ idx ?_ ?_ ?_
  · intro a ha
    simp only [decide_eq_true_eq] at ha ⊢
    intro hav
    exact ha (List.mem_cons_of_mem _ hav)
  · exact List.mem_range.mpr hrange
  · simp [hnv]
  · simp

/-- The visited set only ever grows during the search. -/
theorem depsearch_visited_mono (pool : Pool) (fdefs : List (Nat × Nat)) :
    ∀ fuel : Nat,
    (∀ idx st st', goDeps pool fdefs fuel idx st = some st' →
      st.visited ⊆ st'.visited) ∧
    (∀ cs st st', goListF (goDeps pool fdefs fuel) cs st = some st' →
      st.visited ⊆ st'.visited) := by
  intro fuel
  induction fuel with
  | zero =>
    constructor
    · intro idx st st' h
      simp [goDeps] at h
    · intro cs st st' h
      cases cs with
      | nil =>
        rw [goListF] at h
        cases h
        exact fun a ha => ha
      | cons c cs =>
        rw [goListF] at h
        simp [goDeps] at h
  | succ f ih =>
    obtain ⟨ihA, ihB⟩ := ih
    have hstep : ∀ idx st st', goDeps pool fdefs (f + 1) idx st = some st' →
        st.visited ⊆ st'.visited := by
      intro idx st st' h
      rw [goDeps] at h
      split at h
      · cases h
        exact fun a ha => ha
      · split at h
        · cases h
        · rename_i st2 heq
          have h12 : (idx :: st.visited) ⊆ st2.visited := by
            split at heq
            · rename_i n hn
              split at heq
              · rename_i fAst hl
                split at heq
                · cases heq
                  exact fun a ha => ha
                · exact ihA _ _ _ heq
              · cases heq
                exact fun a ha => ha
            · rename_i fi c1 c2 c3 hn
              exact ihA _ _ _ heq
            · cases heq
              exact fun a ha => ha
          have h01 : st.visited ⊆ (idx :: st.visited) :=
            fun a ha => List.mem_cons_of_mem _ ha
          split at h
          · rename_i cs hcs
            exact List.Subset.trans (List.Subset.trans h01 h12) (ihB _ _ _ h)
          · cases h
            exact List.Subset.trans h01 h12
    refine ⟨hstep, ?_⟩
    intro cs
    induction cs with
    | nil =>
      intro st st' h
      rw [goListF] at h
      cases h
      exact fun a ha => ha
    | cons c cs ihc =>
      intro st st' h
      rw [goListF] at h
      split at h
      · rename_i stm hm
        exact List.Subset.trans (hstep _ _ _ hm) (ihc _ _ h)
      · cases h

theorem inRange_of_nodeAt_userFunc {pool : Pool} {i n : Nat}
    (h : nodeAt pool i = .userFunc n) : i < pool.length := by
  by_contra hc
  rw [nodeAt_oob (Nat.le_of_not_lt hc)] at h
  cases h

theorem inRange_of_nodeAt_call {pool : Pool} {i a b c d : Nat}
    (h : nodeAt pool i = .call a b c d) : i < pool.length := by
  by_contra hc
  rw [nodeAt_oob (Nat.le_of_not_lt hc)] at h
  cases h

theorem inRange_of_childrenP_some {pool : Pool} {i : Nat} {cs : List Nat}
    (h : childrenP pool i = some cs) : i < pool.length := by
  by_contra hc
  simp [childrenP, nodeAt_oob (Nat.le_of_not_lt hc)] at h

/-- Fuel one larger than the number of unvisited in-range indices always
completes the search: every level of nesting either stops at a visited
node or marks a fresh in-range node visited first. -/
theorem depsearch_fuel_sufficient (pool : Pool) (fdefs : List (Nat × Nat)) :
    ∀ fuel : Nat,
    (∀ idx st, unvisCount pool st.visited < fuel →
      (goDeps pool fdefs fuel idx st).isSome) ∧
    (∀ cs st, unvisCount pool st.visited < fuel →
      (goListF (goDeps pool fdefs fuel) cs st).isSome) := by
  intro fuel
  induction fuel with
  | zero =>
    constructor
    · intro idx st h
      omega
    · intro cs st h
      omega
  | succ f ih =>
    obtain ⟨ihA, ihB⟩ := ih
    have hstep : ∀ idx st, unvisCount pool st.visited < f + 1 →
        (goDeps pool fdefs (f + 1) idx st).isSome := by
      intro idx st h
      rw [goDeps]
      split
      · rfl
      · rename_i hnv
        split
        · -- the pre-children step returned none: impossible
          rename_i heq
          exfalso
          split at heq
          · rename_i n hnode
            have hrange := inRange_of_nodeAt_userFunc hnode
            split at heq
            · rename_i fAst hl
              split at heq
              · cases heq
              · have hlt : unvisCount pool (idx :: st.visited) < f :=
                  Nat.lt_of_lt_of_le (unvisCount_insert_lt pool hrange hnv)
                    (Nat.lt_succ_iff.mp h)
                have hs := ihA fAst ⟨n :: st.deps, idx :: st.visited⟩ hlt
                rw [heq] at hs
                cases hs
            · cases heq
          · rename_i fi c1 c2 c3 hnode
            have hrange := inRange_of_nodeAt_call hnode
            have hlt : unvisCount pool (idx :: st.visited) < f :=
              Nat.lt_of_lt_of_le (unvisCount_insert_lt pool hrange hnv)
                (Nat.lt_succ_iff.mp h)
            have hs := ihA fi ⟨st.deps, idx :: st.visited⟩ hlt
            rw [heq] at hs
            cases hs
          · cases heq
        · -- the pre-children step returned some st2
          rename_i st2 heq
          have h12 : (idx :: st.visited) ⊆ st2.visited := by
            split at heq
            · rename_i n hnode
              split at heq
              · rename_i fAst hl
                split at heq
                · cases heq
                  exact fun a ha => ha
                · exact (depsearch_visited_mono pool fdefs f).1 _ _ _ heq
              · cases heq
                exact fun a ha => ha
            · exact (depsearch_visited_mono pool fdefs f).1 _ _ _ heq
            · cases heq
              exact fun a ha => ha
          split
          · rename_i cs hcs
            have hrange := inRange_of_childrenP_some hcs
            have hlt : unvisCount pool st2.visited < f := by
              have h1 := unvisCount_anti pool h12
              have h2 := unvisCount_insert_lt pool hrange hnv
              omega
            exact ihB cs st2 hlt
          · rfl
    refine ⟨hstep, ?_⟩
    intro cs
    induction cs with
    | nil =>
      intro st h
      rw [goListF]
      rfl
    | cons c cs ihc =>
      intro st h
      rw [goListF]
      cases hm : goDeps pool fdefs (f + 1) c st with
      | none =>
        have hs := hstep c st h
        rw [hm] at hs
        cases hs
      | some stm =>
        have hsub := (depsearch_visited_mono pool fdefs (f + 1)).1 _ _ _ hm
        have hlt : unvisCount pool stm.visited < f + 1 :=
          Nat.lt_of_le_of_lt (unvisCount_anti pool hsub) h
        exact ihc stm hlt

/-- A completed search is a fixed point of more fuel. -/
theorem depsearch_stable (pool : Pool) (fdefs : List (Nat × Nat)) :
    ∀ n : Nat,
    (∀ m, n ≤ m → ∀ idx st r, goDeps pool fdefs n idx st = some r →
      goDeps pool fdefs m idx st = some r) ∧
    (∀ m, n ≤ m → ∀ cs st r, goListF (goDeps pool fdefs n) cs st = some r →
      goListF (goDeps pool fdefs m) cs st = some r) := by
  intro n
  induction n with
  | zero =>
    constructor
    · intro m hm idx st r h
      simp [goDeps] at h
    · intro m hm cs st r h
      cases cs with
      | nil =>
        rw [goListF] at h
        rw [goListF]
        exact h
      | cons c cs =>
        rw [goListF] at h
        simp [goDeps] at h
  | succ n ih =>
    obtain ⟨ihA, ihB⟩ := ih
    have hstepA : ∀ m, n + 1 ≤ m → ∀ idx st r,
        goDeps pool fdefs (n + 1) idx st = some r →
        goDeps pool fdefs m idx st = some r := by
      intro m hm idx st r h
      obtain ⟨m', rfl⟩ : ∃ m', m = m' + 1 := ⟨m - 1, by omega⟩
      have hm' : n ≤ m' := by omega
      rw [goDeps] at h
      rw [goDeps]
      by_cases hv : idx ∈ st.visited
      · rw [if_pos hv] at h
        rw [if_pos hv]
        exact h
      · rw [if_neg hv] at h
        rw [if_neg hv]
        cases hnode : nodeAt pool idx with
        | userFunc nm =>
          simp only [hnode] at h ⊢
          cases hl : fdefs.lookup nm with
          | some fAst =>
            simp only [hl] at h ⊢
            by_cases hd : nm ∈ st.deps
            · rw [if_pos hd] at h
              rw [if_pos hd]
              cases hc : childrenP pool idx with
              | some cs =>
                simp only [hc] at h ⊢
                exact ihB m' hm' _ _ _ h
              | none =>
                simp only [hc] at h ⊢
                exact h
            · rw [if_neg hd] at h
              rw [if_neg hd]
              cases hrec : goDeps pool fdefs n fAst ⟨nm :: st.deps, idx :: st.visited⟩ with
              | none =>
                rw [hrec] at h
                cases h
              | some st2 =>
                rw [hrec] at h
                rw [ihA m' hm' _ _ _ hrec]
                cases hc : childrenP pool idx with
                | some cs =>
                  simp only [hc] at h ⊢
                  exact ihB m' hm' _ _ _ h
                | none =>
                  simp only [hc] at h ⊢
                  exact h
          | none =>
            simp only [hl] at h ⊢
            cases hc : childrenP pool idx with
            | some cs =>
              simp only [hc] at h ⊢
              exact ihB m' hm' _ _ _ h
            | none =>
              simp only [hc] at h ⊢
              exact h
        | call fi c1 c2 c3 =>
          simp only [hnode] at h ⊢
          cases hrec : goDeps pool fdefs n fi ⟨st.deps, idx :: st.visited⟩ with
          | none =>
            rw [hrec] at h
            cases h
          | some st2 =>
            rw [hrec] at h
            rw [ihA m' hm' _ _ _ hrec]
            cases hc : childrenP pool idx with
            | some cs =>
              simp only [hc] at h ⊢
              exact ihB m' hm' _ _ _ h
            | none =>
              simp only [hc] at h ⊢
              exact h
        | integer v =>
          simp only [hnode] at h ⊢
          cases hc : childrenP pool idx with
          | some cs =>
            simp only [hc] at h ⊢
            exact ihB m' hm' _ _ _ h
          | none =>
            simp only [hc] at h ⊢
            exact h
        | paramRef a b c =>
          simp only [hnode] at h ⊢
          cases hc : childrenP pool idx with
          | some cs =>
            simp only [hc] at h ⊢
            exact ihB m' hm' _ _ _ h
          | none =>
            simp only [hc] at h ⊢
            exact h
        | primitiveFunc p =>
          simp only [hnode] at h ⊢
          cases hc : childrenP pool idx with
          | some cs =>
            simp only [hc] at h ⊢
            exact ihB m' hm' _ _ _ h
          | none =>
            simp only [hc] at h ⊢
            exact h
        | lambda a b =>
          simp only [hnode] at h ⊢
          cases hc : childrenP pool idx with
          | some cs =>
            simp only [hc] at h ⊢
            exact ihB m' hm' _ _ _ h
          | none =>
            simp only [hc] at h ⊢
            exact h
        | functionDef a b c =>
          simp only [hnode] at h ⊢
          cases hc : childrenP pool idx with
          | some cs =>
            simp only [hc] at h ⊢
            exact ihB m' hm' _ _ _ h
          | none =>
            simp only [hc] at h ⊢
            exact h
    refine ⟨hstepA, ?_⟩
    intro m hm cs
    obtain ⟨m', rfl⟩ : ∃ m', m = m' + 1 := ⟨m - 1, by omega⟩
    induction cs with
    | nil =>
      intro st r h
      rw [goListF] at h
      rw [goListF]
      exact h
    | cons c cs ihc =>
      intro st r h
      rw [goListF] at h
      rw [goListF]
      cases hrec : goDeps pool fdefs (n + 1) c st with
      | none =>
        rw [hrec] at h
        cases h
      | some st2 =>
        rw [hrec] at h
        rw [hstepA (m' + 1) hm _ _ _ hrec]
        exact ihc _ _ h

/-- Every name the search adds to the dependency set has an entry in the
function-definition table: insertion happens only under a successful
`function_defs.get`. -/
theorem depsearch_sound (pool : Pool) (fdefs : List (Nat × Nat)) :
    ∀ fuel : Nat,
    (∀ idx st st', goDeps pool fdefs fuel idx st = some st' →
      ∀ n ∈ st'.deps, n ∈ st.deps ∨ (fdefs.lookup n).isSome) ∧
    (∀ cs st st', goListF (goDeps pool fdefs fuel) cs st = some st' →
      ∀ n ∈ st'.deps, n ∈ st.deps ∨ (fdefs.lookup n).isSome) := by
  intro fuel
  induction fuel with
  | zero =>
    constructor
    · intro idx st st' h
      simp [goDeps] at h
    · intro cs st st' h
      cases cs with
      | nil =>
        rw [goListF] at h
        cases h
        exact fun n hn => Or.inl hn
      | cons c cs =>
        rw [goListF] at h
        simp [goDeps] at h
  | succ f ih =>
    obtain ⟨ihA, ihB⟩ := ih
    have hstep : ∀ idx st st', goDeps pool fdefs (f + 1) idx st = some st' →
        ∀ n ∈ st'.deps, n ∈ st.deps ∨ (fdefs.lookup n).isSome := by
      intro idx st st' h
      rw [goDeps] at h
      split at h
      · cases h
        exact fun n hn => Or.inl hn
      · split at h
        · cases h
        · rename_i st2 heq
          have h12 : ∀ n ∈ st2.deps, n ∈ st.deps ∨ (fdefs.lookup n).isSome := by
            split at heq
            · rename_i nm hnode
              split at heq
              · rename_i fAst hl
                split at heq
                · cases heq
                  exact fun n hn => Or.inl hn
                · intro n hn
                  rcases ihA _ _ _ heq n hn with hin | hs
                  · rcases List.mem_cons.mp hin with rfl | hin2
                    · exact Or.inr (by rw [hl]; rfl)
                    · exact Or.inl hin2
                  · exact Or.inr hs
              · cases heq
                exact fun n hn => Or.inl hn
            · intro n hn
              exact ihA _ _ _ heq n hn
            · cases heq
              exact fun n hn => Or.inl hn
          split at h
          · rename_i cs hcs
            intro n hn
            rcases ihB _ _ _ h n hn with hin | hs
            · exact h12 n hin
            · exact Or.inr hs
          · cases h
            exact h12
    refine ⟨hstep, ?_⟩
    intro cs
    induction cs with
    | nil =>
      intro st st' h
      rw [goListF] at h
      cases h
      exact fun n hn => Or.inl hn
    | cons c cs ihc =>
      intro st st' h
      rw [goListF] at h
      split at h
      · rename_i stm hm
        intro n hn
        rcases ihc _ _ h n hn with hin | hs
        · exact hstep _ _ _ hm n hin
        · exact Or.inr hs
      · cases h

/-- `fn f(){ f() }` — a self-recursive program.  Names: f=0; the body is
the call node 1, the definition node 2. -/
def recPool : Pool := [.userFunc 0, .call 0 0 0 0, .functionDef 0 0 1]

/-- `function_defs` of `recPool`. -/
def recDefs : List (Nat × Nat) := [(0, 2)]

/-- The interner state after parsing `recPool`. -/
def recInterner : Interner := ⟨["f"], [("f", 0)]⟩

/-- C10: the dependency search terminates on every pool — from any start
node, fuel `pool.length + 1` completes the search (the visited set
prevents revisiting, so each level of nesting consumes a fresh in-range
node), and every larger fuel returns the same result, including on
self-recursive and mutually recursive programs; and every `NameIdx` in
the set returned by `find_dependencies` is a key of the pool's
function-definition table. -/
theorem find_dependencies_terminates_sound (pool : Pool) (fdefs : List (Nat × Nat)) :
    (∀ idx, (goDeps pool fdefs (pool.length + 1) idx ⟨[], []⟩).isSome) ∧
    (∀ idx f, pool.length + 1 ≤ f →
      goDeps pool fdefs f idx ⟨[], []⟩ =
        goDeps pool fdefs (pool.length + 1) idx ⟨[], []⟩) ∧
    (∀ inter functionName n,
      n ∈ findDependencies inter pool fdefs functionName →
      (fdefs.lookup n).isSome) := by
  have hcount : unvisCount pool [] = pool.length := by
    simp [unvisCount]
  refine ⟨?_, ?_, ?_⟩
  · intro idx
    apply (depsearch_fuel_sufficient pool fdefs (pool.length + 1)).1
    rw [hcount]
    omega
  · intro idx f hf
    have h1 := (depsearch_fuel_sufficient pool fdefs (pool.length + 1)).1 idx
      ⟨[], []⟩ (by rw [hcount]; omega)
    obtain ⟨r, hr⟩ := Option.isSome_iff_exists.mp h1
    rw [hr]
    exact (depsearch_stable pool fdefs (pool.length + 1)).1 f hf _ _ _ hr
  · intro inter functionName n hn
    unfold findDependencies at hn
    split at hn
    · split at hn
      · split at hn
        · rename_i st hgo
          rcases (depsearch_sound pool fdefs (pool.length + 1)).1 _ _ _ hgo n hn
            with hin | hs
          · cases hin
          · exact hs
        · cases hn
      · cases hn
    · cases hn

/-- Witness for C10 on the self-recursive program `fn f(){ f() }`: the
search completes at fuel `pool.length + 1`, fuel 50 gives the same
result, and the reported dependency 0 is a key of the table. -/
theorem find_dependencies_terminates_sound_witness :
    (goDeps recPool recDefs (recPool.length + 1) 2 ⟨[], []⟩).isSome ∧
    goDeps recPool recDefs 50 2 ⟨[], []⟩ =
      goDeps recPool recDefs (recPool.length + 1) 2 ⟨[], []⟩ ∧
    (recDefs.lookup 0).isSome :=
  ⟨(find_dependencies_terminates_sound recPool recDefs).1 2,
   (find_dependencies_terminates_sound recPool recDefs).2.1 2 50 (by decide),
   (find_dependencies_terminates_sound recPool recDefs).2.2 recInterner "f" 0
     (by decide)⟩

end Slang
